import Mathlib

/-!
Verification development for the `gollback` Go package (`gollback.go`).

The package provides two concurrency combinators over asynchronous
functions: `Race` (first success wins, last error as fallback) and `All`
(wait for every operation, collect results positionally), plus a
constructor `New` that derives a cancellable context once per engine.

Shallow embedding.  Each goroutine spawned by `Race`/`All` is modelled as
a small state machine; the shared state (the derived context's
cancellation flag, the one-slot buffered channel `out`, the result
slices, the `sync.WaitGroup` barrier) lives in an explicit configuration.
A schedule — a list of labels, one per atomic step of one goroutine or of
the calling (main) goroutine — resolves the nondeterminism of the Go
scheduler; theorems quantify over all schedules.  Atomic steps are chosen
at the points where a goroutine reads or writes shared state:
  * the `select`/`ctx.Done()` check together with the call `f(p.ctx)`
    (the callback touches no shared engine state in the model, so its
    invocation is placed at the moment the check passes);
  * the `p.ctx.Err() != nil` re-check (for `All`, together with the two
    writes `rs[index] = ...`, `errs[index] = ...`, which touch slots no
    other goroutine reads or writes before the barrier);
  * `p.cancel()`;
  * the channel send `out <- &r` (blocks while the one-slot buffer is
    full) and the receive `r := <-out`.
Machine integers do not occur; `interface{}` values and `error` values
are modelled as `Option Nat` (with `none` for Go's `nil`/zero value).
Callbacks are modelled by the pair they return: the engine never inspects
a callback, and a callback that never returns simply has no `ran` step in
a schedule.
-/

namespace Gollback

/-- Model of a Go `interface{}` value: `none` is `nil` (the zero value). -/
abbrev GoVal := Option Nat

/-- Model of a Go `error` value: `none` is `nil` (no error). -/
abbrev GoErr := Option Nat

/-- Model of `AsyncFunc func(ctx context.Context) (interface{}, error)`:
a callback is represented by the pair it returns when invoked.  The
engine passes `p.ctx` through but never looks at how the callback uses
it, so for the engine-level claims the returned pair is all that
matters. -/
structure AsyncFunc where
  res : GoVal
  err : GoErr
deriving DecidableEq, Repr

/-- Model of `type response struct { res interface{}; err error; index int }`.
Note that in the source neither `Race` nor `All` ever assigns `r.index`
(`var r response` only has `r.res, r.err = f(p.ctx)`), so `index` always
holds its zero value `0`. -/
structure response where
  res : GoVal
  err : GoErr
  index : Nat
deriving DecidableEq, Repr

/-- The `response` value `var r response; r.res, r.err = f(p.ctx)` built by
the goroutine of operation `i`: the callback's pair, with `index` left at
its zero value. -/
def respOf (ops : List AsyncFunc) (i : Nat) : response :=
  match ops.get? i with
  | some f => { res := f.res, err := f.err, index := 0 }
  | none => { res := none, err := none, index := 0 }

/-- Model of `context.Context` as far as the engine observes it: whether
`ctx.Err() != nil` / `ctx.Done()` is closed. -/
structure goCtx where
  cancelled : Bool
deriving DecidableEq, Repr

/-- Model of `context.Background()`: a never-cancelling root scope. -/
def Background : goCtx := { cancelled := false }

/-- Model of `type gollback struct { gollbacks []AsyncFunc; ctx context.Context; cancel context.CancelFunc }`.
The field `ctx` is the child context derived by `context.WithCancel` in
`New`; its `Err()` is non-nil as soon as either the parent was cancelled
or `cancel` has been invoked.  We record the parent's state and whether
the engine's own `cancel` has fired. -/
structure gollback where
  parentCancelled : Bool
  cancelFlag : Bool
deriving DecidableEq, Repr

/-- Whether the engine's derived context `p.ctx` is cancelled
(`p.ctx.Err() != nil`). -/
def gollback.ctxDone (p : gollback) : Bool :=
  p.parentCancelled || p.cancelFlag

/-- Model of `func New(ctx context.Context) Gollback`: a `nil` context is
replaced by `context.Background()`, then exactly one child context and
its cancel trigger are derived by `context.WithCancel` and stored for the
engine's lifetime.  The construction never fails. -/
def New (ctx : Option goCtx) : gollback :=
  let ctx' := match ctx with
    | none => Background
    | some c => c
  { parentCancelled := ctx'.cancelled, cancelFlag := false }

/-- Scheduling labels: `g i` performs the next atomic step of the
goroutine launched for operation `i`; `main` performs the next atomic
step of the calling goroutine. -/
inductive Label
  | g (i : Nat)
  | main
deriving DecidableEq, Repr

/-- Pointwise update of a function-indexed family (the per-goroutine
program counters). -/
def upd {α : Type} (f : Nat → α) (i : Nat) (a : α) : Nat → α :=
  fun j => if j = i then a else f j

/-! ## The `Race` machine (lines 33–63 of `gollback.go`) -/

/-- Program counter of one goroutine of `Race`:
  * `start`   — about to execute the `select`;
  * `ran r`   — the `select` chose `default` and `f(p.ctx)` returned,
                `r` holds the response; about to check `p.ctx.Err()`;
  * `toCancel r` — the publish condition `r.err == nil || index == len(fns)-1`
                held; about to call `p.cancel()`;
  * `toSend r` — `p.cancel()` done; executing `out <- &r` (blocks while
                the one-slot buffer is full);
  * `exited`  — returned without publishing;
  * `sent`    — published and returned. -/
inductive RGState
  | start
  | ran (r : response)
  | toCancel (r : response)
  | toSend (r : response)
  | exited
  | sent
deriving DecidableEq, Repr

/-- State of `Race`'s calling goroutine: blocked in `r := <-out`, or
having received the response it will return. -/
inductive RMain
  | waiting
  | received (r : response)
deriving DecidableEq, Repr

/-- Shared configuration of one `Race` call: the derived context's
cancellation flag, the one-slot buffered channel `out` (line 34,
`make(chan *response, 1)`), the goroutines' program counters, and the
caller's state. -/
structure RaceConfig where
  cancelled : Bool
  buf : Option response
  gs : Nat → RGState
  main : RMain

/-- One atomic step of the goroutine launched for operation `i` in
`Race`.  A label whose goroutine does not exist (`i ≥ len(fns)`), or
whose goroutine is finished or blocked in its send, leaves the
configuration unchanged. -/
def raceStepG (ops : List AsyncFunc) (c : RaceConfig) (i : Nat) : RaceConfig :=
  match ops.get? i with
  | none => c
  | some f =>
    match c.gs i with
    | .start =>
      -- `select { case <-p.ctx.Done(): return; default: r.res, r.err = f(p.ctx) ... }`
      if c.cancelled then { c with gs := upd c.gs i .exited }
      else { c with gs := upd c.gs i (.ran { res := f.res, err := f.err, index := 0 }) }
    | .ran r =>
      -- `if p.ctx.Err() != nil { return }` then the publish condition
      if c.cancelled then { c with gs := upd c.gs i .exited }
      else if r.err = none ∨ i = ops.length - 1 then
        { c with gs := upd c.gs i (.toCancel r) }
      else { c with gs := upd c.gs i .exited }
    | .toCancel r =>
      -- `p.cancel()`
      { c with cancelled := true, gs := upd c.gs i (.toSend r) }
    | .toSend r =>
      -- `out <- &r`: succeeds only while the one-slot buffer is free
      match c.buf with
      | none => { c with buf := some r, gs := upd c.gs i .sent }
      | some _ => c
    | .exited => c
    | .sent => c

/-- One atomic step of `Race`'s calling goroutine: the receive `r := <-out`,
which succeeds only while the buffer is non-empty. -/
def raceStepMain (c : RaceConfig) : RaceConfig :=
  match c.main, c.buf with
  | .waiting, some r => { c with buf := none, main := .received r }
  | _, _ => c

/-- One atomic step of the `Race` machine. -/
def raceStep (ops : List AsyncFunc) (c : RaceConfig) : Label → RaceConfig
  | .g i => raceStepG ops c i
  | .main => raceStepMain c

/-- Configuration at the moment the goroutines of `Race` have been
launched: `cancelled` is the state of the engine's derived context at the
start of the call. -/
def raceInit (cancelled : Bool) : RaceConfig :=
  { cancelled := cancelled, buf := none, gs := fun _ => .start, main := .waiting }

/-- Run the `Race` machine under a schedule. -/
def raceRun (ops : List AsyncFunc) (cancelled : Bool) (sched : List Label) : RaceConfig :=
  sched.foldl (raceStep ops) (raceInit cancelled)

/-- Observable result of a `Race` call under a schedule: `some (v, e)`
when the caller has executed `r := <-out` and would `return r.res, r.err`;
`none` while the caller is still blocked. -/
def Race (ops : List AsyncFunc) (cancelled : Bool) (sched : List Label) :
    Option (GoVal × GoErr) :=
  match (raceRun ops cancelled sched).main with
  | .received r => some (r.res, r.err)
  | .waiting => none

/-! ## The `All` machine (lines 65–101 of `gollback.go`) -/

/-- Program counter of one goroutine of `All`:
  * `start`  — about to execute the `select`;
  * `ran r`  — `f(p.ctx)` returned with response `r`; about to check
               `p.ctx.Err()` and, if it is nil, write
               `rs[index]`/`errs[index]`;
  * `exited` — returned (via `defer wg.Done()`) without writing;
  * `done`   — wrote its slots and returned (via `defer wg.Done()`). -/
inductive AGState
  | start
  | ran (r : response)
  | exited
  | done
deriving DecidableEq, Repr

/-- Whether a goroutine of `All` has returned, i.e. its deferred
`wg.Done()` has run. -/
def AGState.terminal : AGState → Bool
  | .exited => true
  | .done => true
  | _ => false

/-- State of `All`'s calling goroutine: blocked in `wg.Wait()`; past the
barrier (about to run `p.cancel()` and return); or returned. -/
inductive AMain
  | waiting
  | passed
  | returned
deriving DecidableEq, Repr

/-- Shared configuration of one `All` call.  `rs` and `errs` model the Go
slices `make([]interface{}, len(fns))` and `make([]error, len(fns))`: the
outer `Option` is slice nil-ness (`none` would be a nil slice; `make`
always yields a non-nil one). -/
structure AllConfig where
  cancelled : Bool
  rs : Option (List GoVal)
  errs : Option (List GoErr)
  gs : Nat → AGState
  main : AMain

/-- One atomic step of the goroutine launched for operation `i` in `All`. -/
def allStepG (ops : List AsyncFunc) (c : AllConfig) (i : Nat) : AllConfig :=
  match ops.get? i with
  | none => c
  | some f =>
    match c.gs i with
    | .start =>
      -- `select { case <-p.ctx.Done(): return; default: r.res, r.err = f(p.ctx) ... }`
      if c.cancelled then { c with gs := upd c.gs i .exited }
      else { c with gs := upd c.gs i (.ran { res := f.res, err := f.err, index := 0 }) }
    | .ran r =>
      -- `if p.ctx.Err() != nil { return }` then `rs[index] = r.res; errs[index] = r.err`
      if c.cancelled then { c with gs := upd c.gs i .exited }
      else
        { c with
          gs := upd c.gs i .done
          rs := c.rs.map (fun l => l.set i r.res)
          errs := c.errs.map (fun l => l.set i r.err) }
    | .exited => c
    | .done => c

/-- One atomic step of `All`'s calling goroutine: `wg.Wait()` (enabled
once every goroutine's deferred `wg.Done()` has run), then `p.cancel()`
followed by `return rs, errs`. -/
def allStepMain (ops : List AsyncFunc) (c : AllConfig) : AllConfig :=
  match c.main with
  | .waiting =>
    if (List.range ops.length).all (fun i => (c.gs i).terminal) then
      { c with main := .passed }
    else c
  | .passed => { c with cancelled := true, main := .returned }
  | .returned => c

/-- One atomic step of the `All` machine. -/
def allStep (ops : List AsyncFunc) (c : AllConfig) : Label → AllConfig
  | .g i => allStepG ops c i
  | .main => allStepMain ops c

/-- Configuration at the moment the goroutines of `All` have been
launched: the two output slices exist, non-nil, zero-filled, of length
`len(fns)`. -/
def allInit (ops : List AsyncFunc) (cancelled : Bool) : AllConfig :=
  { cancelled := cancelled
    rs := some (List.replicate ops.length none)
    errs := some (List.replicate ops.length none)
    gs := fun _ => .start
    main := .waiting }

/-- Run the `All` machine under a schedule. -/
def allRun (ops : List AsyncFunc) (cancelled : Bool) (sched : List Label) : AllConfig :=
  sched.foldl (allStep ops) (allInit ops cancelled)

/-- Observable result of an `All` call under a schedule: the two slices
once the caller has returned, `none` while it is still blocked. -/
def All (ops : List AsyncFunc) (cancelled : Bool) (sched : List Label) :
    Option (Option (List GoVal) × Option (List GoErr)) :=
  match (allRun ops cancelled sched).main with
  | .returned => some ((allRun ops cancelled sched).rs, (allRun ops cancelled sched).errs)
  | _ => none

/-! ## Channel accounting for `Race` -/

/-- How many responses sit in the one-slot buffer of `out`. -/
def buf01 : Option response → Nat
  | some _ => 1
  | none => 0

/-- How many responses the caller of `Race` has consumed from `out`. -/
def recv01 : RMain → Nat
  | .waiting => 0
  | .received _ => 1

/-- How many of the `n` goroutines have completed their send on `out`. -/
def sentCount (n : Nat) (gs : Nat → RGState) : Nat :=
  (List.range n).countP (fun i => decide (gs i = RGState.sent))

/-! ## The `Race` invariant -/

/-- Invariant of the `Race` machine: a goroutine only ever holds the
response of its own operation; the publish stations, the buffer and the
received result all carry a response that satisfied the publish condition
`r.err == nil || index == len(fns)-1`; `p.cancel()` has run before any
send or receive; and every completed send is either still buffered or the
one consumed response (channel conservation). -/
structure RaceInv (ops : List AsyncFunc) (c : RaceConfig) : Prop where
  oob : ∀ i, ops.length ≤ i → c.gs i = .start
  ran_ok : ∀ i r, c.gs i = .ran r → r = respOf ops i
  toCancel_ok : ∀ i r, c.gs i = .toCancel r →
    r = respOf ops i ∧ (r.err = none ∨ i = ops.length - 1)
  toSend_ok : ∀ i r, c.gs i = .toSend r →
    r = respOf ops i ∧ (r.err = none ∨ i = ops.length - 1) ∧ c.cancelled = true
  buf_ok : ∀ r, c.buf = some r →
    (∃ i, i < ops.length ∧ r = respOf ops i ∧ (r.err = none ∨ i = ops.length - 1)) ∧
      c.cancelled = true
  main_ok : ∀ r, c.main = .received r →
    (∃ i, i < ops.length ∧ r = respOf ops i ∧ (r.err = none ∨ i = ops.length - 1)) ∧
      c.cancelled = true
  count_ok : sentCount ops.length c.gs = buf01 c.buf + recv01 c.main

/-! ## `Race` on an already-cancelled engine, and `Race` with no operations -/

/-- On an engine whose derived context is already cancelled, every
goroutine of `Race` moves from its `select` straight to exit; nothing is
ever published, and the caller's receive never fires. -/
structure RaceDead (c : RaceConfig) : Prop where
  cancel_true : c.cancelled = true
  gs_dead : ∀ i, c.gs i = .start ∨ c.gs i = .exited
  buf_none : c.buf = none
  main_wait : c.main = .waiting

/-- Invariant of the `All` machine, for a call that starts with the
derived context in state `c0`: a goroutine only ever holds its own
operation's response; the output slices stay non-nil, keep length
`len(fns)`, and slot `i` holds operation `i`'s result exactly when
goroutine `i` finished its write (and the zero value otherwise); the
caller passes `wg.Wait()` only once every goroutine is terminal and has
run `p.cancel()` whenever it has returned; and on a fresh (uncancelled)
engine the context only becomes cancelled at the very return step, so no
goroutine ever exits early. -/
structure AllInv (ops : List AsyncFunc) (c0 : Bool) (c : AllConfig) : Prop where
  oob : ∀ i, ops.length ≤ i → c.gs i = .start
  ran_ok : ∀ i r, c.gs i = .ran r → r = respOf ops i
  rs_ok : ∃ rl, c.rs = some rl ∧ rl.length = ops.length ∧
    (∀ i, i < ops.length → c.gs i = .done → rl.get? i = some (respOf ops i).res) ∧
    (∀ i, i < ops.length → c.gs i ≠ .done → rl.get? i = some none)
  errs_ok : ∃ el, c.errs = some el ∧ el.length = ops.length ∧
    (∀ i, i < ops.length → c.gs i = .done → el.get? i = some (respOf ops i).err) ∧
    (∀ i, i < ops.length → c.gs i ≠ .done → el.get? i = some none)
  passed_terminal : c.main = .passed ∨ c.main = .returned →
    ∀ i, i < ops.length → (c.gs i).terminal = true
  returned_cancelled : c.main = .returned → c.cancelled = true
  fresh_cancel : c0 = false → c.cancelled = true → c.main = .returned
  fresh_noexit : c0 = false → ∀ i, c.gs i ≠ .exited

/-! ## `All` on an already-cancelled engine -/

/-- On an engine whose derived context is already cancelled, every
goroutine of `All` moves from its `select` straight to exit, so the
output slices keep their zero values. -/
structure AllDead (ops : List AsyncFunc) (c : AllConfig) : Prop where
  cancel_true : c.cancelled = true
  gs_dead : ∀ i, c.gs i = .start ∨ c.gs i = .exited
  rs_eq : c.rs = some (List.replicate ops.length none)
  errs_eq : c.errs = some (List.replicate ops.length none)

/-! ## The goroutine loop bodies, instrumented (claim C8) -/

/-- How one pass of the `for` loop body of a goroutine of `Race` ends. -/
inductive RaceExit
  | exitSelect
  | exitPostCheck
  | published (r : response)
  | noPublish (r : response)
deriving DecidableEq, Repr

/-- One pass of the `for { select { ... } }` body of a goroutine of
`Race` (lines 38–56), with `c1` the value of the cancellation signal read
by the non-blocking `select` and `c2` the value read by `p.ctx.Err()`
after the operation returns.  Yields how the pass ended (`none` would
mean the body fell through to another loop iteration, which no path
does), the number of reads of the cancellation signal, and the number of
invocations of the operation. -/
def raceLoopBody (c1 c2 : Bool) (f : AsyncFunc) (index n : Nat) :
    Option RaceExit × Nat × Nat :=
  if c1 then (some .exitSelect, 1, 0)
  else
    if c2 then (some .exitPostCheck, 2, 1)
    else if f.err = none ∨ index = n - 1 then
      (some (.published { res := f.res, err := f.err, index := 0 }), 2, 1)
    else (some (.noPublish { res := f.res, err := f.err, index := 0 }), 2, 1)

/-- The goroutine's `for` loop in `Race`, fuelled: run the body until a
pass returns or the fuel runs out, accumulating signal checks and
operation invocations across passes. -/
def raceGoroutine (fuel : Nat) (c1 c2 : Bool) (f : AsyncFunc) (index n : Nat) :
    Option RaceExit × Nat × Nat :=
  match fuel with
  | 0 => (none, 0, 0)
  | fuel + 1 =>
    match raceLoopBody c1 c2 f index n with
    | (some e, ch, iv) => (some e, ch, iv)
    | (none, ch, iv) =>
      let rest := raceGoroutine fuel c1 c2 f index n
      (rest.1, ch + rest.2.1, iv + rest.2.2)

/-- How one pass of the `for` loop body of a goroutine of `All` ends. -/
inductive AllExit
  | exitSelect
  | exitPostCheck
  | wrote (r : response)
deriving DecidableEq, Repr

/-- One pass of the `for { select { ... } }` body of a goroutine of `All`
(lines 76–93), instrumented like `raceLoopBody`. -/
def allLoopBody (c1 c2 : Bool) (f : AsyncFunc) : Option AllExit × Nat × Nat :=
  if c1 then (some .exitSelect, 1, 0)
  else
    if c2 then (some .exitPostCheck, 2, 1)
    else (some (.wrote { res := f.res, err := f.err, index := 0 }), 2, 1)

/-- The goroutine's `for` loop in `All`, fuelled. -/
def allGoroutine (fuel : Nat) (c1 c2 : Bool) (f : AsyncFunc) :
    Option AllExit × Nat × Nat :=
  match fuel with
  | 0 => (none, 0, 0)
  | fuel + 1 =>
    match allLoopBody c1 c2 f with
    | (some e, ch, iv) => (some e, ch, iv)
    | (none, ch, iv) =>
      let rest := allGoroutine fuel c1 c2 f
      (rest.1, ch + rest.2.1, iv + rest.2.2)

theorem upd_eq {α : Type} (f : Nat → α) (i : Nat) (a : α) : upd f i a i = a := by
  simp [upd]

theorem upd_ne {α : Type} (f : Nat → α) (i j : Nat) (a : α) (h : j ≠ i) :
    upd f i a j = f j := by
  simp [upd, h]

/-! ## Generic helpers -/

theorem get?_replicate_lt {α : Type} (a : α) {n i : Nat} (h : i < n) :
    (List.replicate n a).get? i = some a := by
  induction n generalizing i with
  | zero => omega
  | succ n ih =>
    cases i with
    | zero => rfl
    | succ i =>
      rw [List.replicate_succ, List.get?_cons_succ]
      exact ih (Nat.lt_of_succ_lt_succ h)

theorem get?_some_lt {α : Type} {l : List α} {i : Nat} {a : α} (h : l.get? i = some a) :
    i < l.length := by
  by_contra hni
  rw [List.get?_eq_none.mpr (Nat.le_of_not_lt hni)] at h
  exact Option.noConfusion h

theorem countP_congr' {α : Type} {p q : α → Bool} {l : List α} (h : ∀ x ∈ l, p x = q x) :
    l.countP p = l.countP q := by
  induction l with
  | nil => rfl
  | cons x t ih =>
    rw [List.countP_cons, List.countP_cons, h x (List.mem_cons_self x t),
      ih (fun y hy => h y (List.mem_cons_of_mem x hy))]

theorem countP_upd_not {α : Type} (p : α → Bool) (gs : Nat → α) (i : Nat) (a : α)
    (h1 : p (gs i) = p a) (l : List Nat) :
    l.countP (fun j => p (upd gs i a j)) = l.countP (fun j => p (gs j)) := by
  apply countP_congr'
  intro j _
  by_cases hj : j = i
  · subst hj; rw [upd_eq, h1]
  · rw [upd_ne _ _ _ _ hj]

theorem countP_upd_pos {α : Type} (p : α → Bool) (gs : Nat → α) (i : Nat) (a : α)
    (h1 : p (gs i) = false) (h2 : p a = true) :
    ∀ l : List Nat, l.Nodup → i ∈ l →
      l.countP (fun j => p (upd gs i a j)) = l.countP (fun j => p (gs j)) + 1 := by
  intro l
  induction l with
  | nil => intro _ hi; cases hi
  | cons x t ih =>
    intro hn hi
    rw [List.countP_cons, List.countP_cons]
    rcases List.mem_cons.mp hi with hix | hit
    · have hxt : x ∉ t := (List.nodup_cons.mp hn).1
      have ht : t.countP (fun j => p (upd gs i a j)) = t.countP (fun j => p (gs j)) := by
        apply countP_congr'
        intro j hj
        have hji : j ≠ i := by
          intro hji
          rw [hji, hix] at hj
          exact hxt hj
        rw [upd_ne _ _ _ _ hji]
      rw [ht, ← hix, upd_eq, h1, h2]
      simp
    · have hxi : x ≠ i := fun hxi => (List.nodup_cons.mp hn).1 (hxi ▸ hit)
      rw [ih (List.nodup_cons.mp hn).2 hit, upd_ne _ _ _ _ hxi]
      omega

theorem countP_lt_of_mem_false {α : Type} (p : α → Bool) {l : List α} {x : α}
    (hx : x ∈ l) (hpx : p x = false) : l.countP p + 1 ≤ l.length := by
  induction l with
  | nil => cases hx
  | cons y t ih =>
    rw [List.countP_cons, List.length_cons]
    rcases List.mem_cons.mp hx with h | h
    · subst h
      have hc : t.countP p ≤ t.length := List.countP_le_length p
      simp only [hpx, Bool.false_eq_true, if_false]
      omega
    · have := ih h
      have hle : (if p y then 1 else 0) ≤ 1 := by split <;> omega
      omega

theorem raceInit_inv (ops : List AsyncFunc) (c0 : Bool) : RaceInv ops (raceInit c0) := by
  refine ⟨fun _ _ => rfl, ?_, ?_, ?_, ?_, ?_, ?_⟩
  · intro _ _ h; exact absurd h (by simp [raceInit])
  · intro _ _ h; exact absurd h (by simp [raceInit])
  · intro _ _ h; exact absurd h (by simp [raceInit])
  · intro _ h; exact absurd h (by simp [raceInit])
  · intro _ h; exact absurd h (by simp [raceInit])
  · simp [sentCount, raceInit, buf01, recv01]

theorem raceInv_upd {ops : List AsyncFunc} {c : RaceConfig} (inv : RaceInv ops c)
    {i : Nat} {s' : RGState} (hi : i < ops.length)
    (hns : c.gs i ≠ .sent) (hns' : s' ≠ .sent)
    (hran : ∀ r, s' = .ran r → r = respOf ops i)
    (htc : ∀ r, s' = .toCancel r → r = respOf ops i ∧ (r.err = none ∨ i = ops.length - 1))
    (hts : ∀ r, s' = .toSend r →
      r = respOf ops i ∧ (r.err = none ∨ i = ops.length - 1) ∧ c.cancelled = true) :
    RaceInv ops { c with gs := upd c.gs i s' } := by
  refine ⟨?_, ?_, ?_, ?_, ?_, ?_, ?_⟩
  · intro i' hi'
    have hne : i' ≠ i := by omega
    show upd c.gs i s' i' = .start
    rw [upd_ne _ _ _ _ hne]
    exact inv.oob i' hi'
  · intro i' r h
    have h2 : upd c.gs i s' i' = RGState.ran r := h
    by_cases hii : i' = i
    · subst hii
      rw [upd_eq] at h2
      exact hran r h2
    · rw [upd_ne _ _ _ _ hii] at h2
      exact inv.ran_ok i' r h2
  · intro i' r h
    have h2 : upd c.gs i s' i' = RGState.toCancel r := h
    by_cases hii : i' = i
    · subst hii
      rw [upd_eq] at h2
      exact htc r h2
    · rw [upd_ne _ _ _ _ hii] at h2
      exact inv.toCancel_ok i' r h2
  · intro i' r h
    have h2 : upd c.gs i s' i' = RGState.toSend r := h
    by_cases hii : i' = i
    · subst hii
      rw [upd_eq] at h2
      exact hts r h2
    · rw [upd_ne _ _ _ _ hii] at h2
      exact inv.toSend_ok i' r h2
  · intro r h
    exact inv.buf_ok r h
  · intro r h
    exact inv.main_ok r h
  · show sentCount ops.length (upd c.gs i s') = buf01 c.buf + recv01 c.main
    have hc : sentCount ops.length (upd c.gs i s') = sentCount ops.length c.gs := by
      unfold sentCount
      exact countP_upd_not (fun s => decide (s = RGState.sent)) c.gs i s'
        (by show decide (c.gs i = RGState.sent) = decide (s' = RGState.sent)
            rw [decide_eq_false hns, decide_eq_false hns']) _
    rw [hc]
    exact inv.count_ok

theorem raceStepG_inv {ops : List AsyncFunc} {c : RaceConfig} (inv : RaceInv ops c)
    (i : Nat) : RaceInv ops (raceStepG ops c i) := by
  unfold raceStepG
  split
  · exact inv
  · next f hops =>
    have hi : i < ops.length := get?_some_lt hops
    split
    · next hgs =>
      -- the goroutine is at its `select`
      split
      · exact raceInv_upd inv hi (by rw [hgs]; exact fun h => RGState.noConfusion h)
          (fun h => RGState.noConfusion h) (fun r h => RGState.noConfusion h)
          (fun r h => RGState.noConfusion h) (fun r h => RGState.noConfusion h)
      · refine raceInv_upd inv hi (by rw [hgs]; exact fun h => RGState.noConfusion h)
          (fun h => RGState.noConfusion h) ?_
          (fun r h => RGState.noConfusion h) (fun r h => RGState.noConfusion h)
        intro r h
        cases h
        simp only [respOf, hops]
    · next r hgs =>
      -- the goroutine re-checks `p.ctx.Err()` and decides whether to publish
      split
      · exact raceInv_upd inv hi (by rw [hgs]; exact fun h => RGState.noConfusion h)
          (fun h => RGState.noConfusion h) (fun r h => RGState.noConfusion h)
          (fun r h => RGState.noConfusion h) (fun r h => RGState.noConfusion h)
      · split
        · next hcond =>
          refine raceInv_upd inv hi (by rw [hgs]; exact fun h => RGState.noConfusion h)
            (fun h => RGState.noConfusion h) (fun r h => RGState.noConfusion h) ?_
            (fun r h => RGState.noConfusion h)
          intro r' h
          have hrr : r = r' := by injection h
          cases hrr
          exact ⟨inv.ran_ok i r hgs, hcond⟩
        · exact raceInv_upd inv hi (by rw [hgs]; exact fun h => RGState.noConfusion h)
            (fun h => RGState.noConfusion h) (fun r h => RGState.noConfusion h)
            (fun r h => RGState.noConfusion h) (fun r h => RGState.noConfusion h)
    · next r hgs =>
      -- `p.cancel()`
      refine ⟨?_, ?_, ?_, ?_, ?_, ?_, ?_⟩
      · intro i' hi'
        have hne : i' ≠ i := by omega
        show upd c.gs i (.toSend r) i' = .start
        rw [upd_ne _ _ _ _ hne]
        exact inv.oob i' hi'
      · intro i' r' h
        have h2 : upd c.gs i (.toSend r) i' = RGState.ran r' := h
        by_cases hii : i' = i
        · subst hii; rw [upd_eq] at h2; exact RGState.noConfusion h2
        · rw [upd_ne _ _ _ _ hii] at h2; exact inv.ran_ok i' r' h2
      · intro i' r' h
        have h2 : upd c.gs i (.toSend r) i' = RGState.toCancel r' := h
        by_cases hii : i' = i
        · subst hii; rw [upd_eq] at h2; exact RGState.noConfusion h2
        · rw [upd_ne _ _ _ _ hii] at h2; exact inv.toCancel_ok i' r' h2
      · intro i' r' h
        have h2 : upd c.gs i (.toSend r) i' = RGState.toSend r' := h
        by_cases hii : i' = i
        · rw [hii] at h2 ⊢
          rw [upd_eq] at h2
          have hrr : r = r' := by injection h2
          cases hrr
          exact ⟨(inv.toCancel_ok i r hgs).1, (inv.toCancel_ok i r hgs).2, rfl⟩
        · rw [upd_ne _ _ _ _ hii] at h2
          exact ⟨(inv.toSend_ok i' r' h2).1, (inv.toSend_ok i' r' h2).2.1, rfl⟩
      · intro r' h
        have h2 : c.buf = some r' := h
        exact ⟨(inv.buf_ok r' h2).1, rfl⟩
      · intro r' h
        have h2 : c.main = RMain.received r' := h
        exact ⟨(inv.main_ok r' h2).1, rfl⟩
      · show sentCount ops.length (upd c.gs i (.toSend r)) = buf01 c.buf + recv01 c.main
        have hc : sentCount ops.length (upd c.gs i (.toSend r)) = sentCount ops.length c.gs := by
          unfold sentCount
          exact countP_upd_not (fun s => decide (s = RGState.sent)) c.gs i (.toSend r)
            (by show decide (c.gs i = RGState.sent) = decide (RGState.toSend r = RGState.sent)
                rw [hgs]
                simp) _
        rw [hc]
        exact inv.count_ok
    · next r hgs =>
      -- `out <- &r`
      split
      · next hb =>
        refine ⟨?_, ?_, ?_, ?_, ?_, ?_, ?_⟩
        · intro i' hi'
          have hne : i' ≠ i := by omega
          show upd c.gs i .sent i' = .start
          rw [upd_ne _ _ _ _ hne]
          exact inv.oob i' hi'
        · intro i' r' h
          have h2 : upd c.gs i .sent i' = RGState.ran r' := h
          by_cases hii : i' = i
          · subst hii; rw [upd_eq] at h2; exact RGState.noConfusion h2
          · rw [upd_ne _ _ _ _ hii] at h2; exact inv.ran_ok i' r' h2
        · intro i' r' h
          have h2 : upd c.gs i .sent i' = RGState.toCancel r' := h
          by_cases hii : i' = i
          · subst hii; rw [upd_eq] at h2; exact RGState.noConfusion h2
          · rw [upd_ne _ _ _ _ hii] at h2; exact inv.toCancel_ok i' r' h2
        · intro i' r' h
          have h2 : upd c.gs i .sent i' = RGState.toSend r' := h
          by_cases hii : i' = i
          · subst hii; rw [upd_eq] at h2; exact RGState.noConfusion h2
          · rw [upd_ne _ _ _ _ hii] at h2; exact inv.toSend_ok i' r' h2
        · intro r' h
          have h2 : some r = some r' := h
          have hrr : r = r' := by injection h2
          cases hrr
          exact ⟨⟨i, hi, (inv.toSend_ok i r hgs).1, (inv.toSend_ok i r hgs).2.1⟩,
            (inv.toSend_ok i r hgs).2.2⟩
        · intro r' h
          have h2 : c.main = RMain.received r' := h
          exact inv.main_ok r' h2
        · show sentCount ops.length (upd c.gs i .sent) = buf01 (some r) + recv01 c.main
          have hc : sentCount ops.length (upd c.gs i .sent) = sentCount ops.length c.gs + 1 := by
            unfold sentCount
            exact countP_upd_pos (fun s => decide (s = RGState.sent)) c.gs i .sent
              (by show decide (c.gs i = RGState.sent) = false
                  rw [hgs]
                  simp) (by simp) _ (List.nodup_range ops.length) (List.mem_range.mpr hi)
          rw [hc, inv.count_ok, hb]
          simp only [buf01]
          omega
      · exact inv
    · exact inv
    · exact inv

theorem raceStepMain_inv {ops : List AsyncFunc} {c : RaceConfig} (inv : RaceInv ops c) :
    RaceInv ops (raceStepMain c) := by
  unfold raceStepMain
  split
  · next r hm hb =>
    refine ⟨inv.oob, inv.ran_ok, inv.toCancel_ok, ?_, ?_, ?_, ?_⟩
    · intro i' r' h
      have h2 : c.gs i' = RGState.toSend r' := h
      exact inv.toSend_ok i' r' h2
    · intro r' h
      have h2 : (none : Option response) = some r' := h
      exact Option.noConfusion h2
    · intro r' h
      have h2 : RMain.received r = RMain.received r' := h
      have hrr : r = r' := by injection h2
      subst hrr
      exact inv.buf_ok r hb
    · show sentCount ops.length c.gs = buf01 none + recv01 (.received r)
      rw [inv.count_ok, hb, hm]
      simp only [buf01, recv01]
  · exact inv

theorem raceStep_inv {ops : List AsyncFunc} {c : RaceConfig} (inv : RaceInv ops c) :
    ∀ l, RaceInv ops (raceStep ops c l)
  | .g i => raceStepG_inv inv i
  | .main => raceStepMain_inv inv

theorem raceRun_inv (ops : List AsyncFunc) (c0 : Bool) (sched : List Label) :
    RaceInv ops (raceRun ops c0 sched) := by
  unfold raceRun
  have h : ∀ (s : List Label) (c : RaceConfig), RaceInv ops c →
      RaceInv ops (s.foldl (raceStep ops) c) := by
    intro s
    induction s with
    | nil => intro c hc; exact hc
    | cons l t ih =>
      intro c hc
      exact ih _ (raceStep_inv hc l)
  exact h sched _ (raceInit_inv ops c0)

theorem raceStepG_dead {c : RaceConfig} (h : RaceDead c) (ops : List AsyncFunc) (i : Nat) :
    RaceDead (raceStepG ops c i) := by
  unfold raceStepG
  split
  · exact h
  · next f hops =>
    split
    · next hgs =>
      split
      · refine ⟨h.cancel_true, ?_, h.buf_none, h.main_wait⟩
        intro i'
        show upd c.gs i RGState.exited i' = .start ∨ upd c.gs i RGState.exited i' = .exited
        by_cases hii : i' = i
        · rw [hii, upd_eq]; right; rfl
        · rw [upd_ne _ _ _ _ hii]; exact h.gs_dead i'
      · next hcanc => exact absurd h.cancel_true hcanc
    · next r hgs =>
      rcases h.gs_dead i with h1 | h1 <;> rw [hgs] at h1 <;> exact RGState.noConfusion h1
    · next r hgs =>
      rcases h.gs_dead i with h1 | h1 <;> rw [hgs] at h1 <;> exact RGState.noConfusion h1
    · next r hgs =>
      rcases h.gs_dead i with h1 | h1 <;> rw [hgs] at h1 <;> exact RGState.noConfusion h1
    · exact h
    · exact h

theorem raceStepMain_dead {c : RaceConfig} (h : RaceDead c) :
    RaceDead (raceStepMain c) := by
  unfold raceStepMain
  split
  · next r hm hb =>
    rw [h.buf_none] at hb
    exact Option.noConfusion hb
  · exact h

theorem raceRun_dead (ops : List AsyncFunc) (sched : List Label) :
    RaceDead (raceRun ops true sched) := by
  unfold raceRun
  have h : ∀ (s : List Label) (c : RaceConfig), RaceDead c →
      RaceDead (s.foldl (raceStep ops) c) := by
    intro s
    induction s with
    | nil => intro c hc; exact hc
    | cons l t ih =>
      intro c hc
      refine ih _ ?_
      cases l with
      | g i => exact raceStepG_dead hc ops i
      | main => exact raceStepMain_dead hc
  refine h sched _ ?_
  exact ⟨rfl, fun _ => Or.inl rfl, rfl, rfl⟩

theorem get?_nil {α : Type} (i : Nat) : ([] : List α).get? i = none := by
  cases i <;> rfl

/-- With no operations, no goroutine exists, so no step ever changes the
configuration: nothing is published and the receive blocks forever. -/
theorem raceRun_nil (c0 : Bool) (sched : List Label) :
    raceRun [] c0 sched = raceInit c0 := by
  unfold raceRun
  induction sched with
  | nil => rfl
  | cons l t ih =>
    rw [List.foldl_cons]
    have hstep : raceStep [] (raceInit c0) l = raceInit c0 := by
      cases l with
      | g i =>
        show raceStepG [] (raceInit c0) i = raceInit c0
        unfold raceStepG
        rw [get?_nil]
      | main => rfl
    rw [hstep, ih]

/-! ## The `All` invariant -/

theorem terminal_iff (g : AGState) : g.terminal = true ↔ (g = .exited ∨ g = .done) := by
  cases g <;> simp [AGState.terminal]

theorem allInit_inv (ops : List AsyncFunc) (c0 : Bool) : AllInv ops c0 (allInit ops c0) := by
  refine ⟨fun _ _ => rfl, ?_, ?_, ?_, ?_, ?_, ?_, ?_⟩
  · intro _ _ h
    exact absurd h (by simp [allInit])
  · refine ⟨List.replicate ops.length none, rfl, List.length_replicate _ _, ?_, ?_⟩
    · intro i _ h
      exact absurd h (by simp [allInit])
    · intro i hi _
      exact get?_replicate_lt none hi
  · refine ⟨List.replicate ops.length none, rfl, List.length_replicate _ _, ?_, ?_⟩
    · intro i _ h
      exact absurd h (by simp [allInit])
    · intro i hi _
      exact get?_replicate_lt none hi
  · intro h
    rcases h with h | h <;> exact absurd h (by simp [allInit])
  · intro h
    exact absurd h (by simp [allInit])
  · intro h0 h
    have : c0 = true := h
    rw [h0] at this
    exact Bool.noConfusion this
  · intro _ i h
    exact absurd h (by simp [allInit])

theorem allStepG_inv {ops : List AsyncFunc} {c0 : Bool} {c : AllConfig}
    (inv : AllInv ops c0 c) (i : Nat) : AllInv ops c0 (allStepG ops c i) := by
  unfold allStepG
  split
  · exact inv
  · next f hops =>
    have hi : i < ops.length := get?_some_lt hops
    split
    · next hgs =>
      split
      · next hcanc =>
        -- the goroutine sees the cancelled context at its `select` and exits
        have hnofresh : ∀ h0 : c0 = false, False := by
          intro h0
          have hret := inv.fresh_cancel h0 hcanc
          have hterm := inv.passed_terminal (Or.inr hret) i hi
          rw [hgs] at hterm
          exact Bool.noConfusion hterm
        refine ⟨?_, ?_, ?_, ?_, ?_, inv.returned_cancelled, inv.fresh_cancel, ?_⟩
        · intro i' hi'
          have hne : i' ≠ i := by omega
          show upd c.gs i .exited i' = .start
          rw [upd_ne _ _ _ _ hne]
          exact inv.oob i' hi'
        · intro i' r h
          have h2 : upd c.gs i AGState.exited i' = AGState.ran r := h
          by_cases hii : i' = i
          · rw [hii, upd_eq] at h2; exact AGState.noConfusion h2
          · rw [upd_ne _ _ _ _ hii] at h2; exact inv.ran_ok i' r h2
        · obtain ⟨rl, h1, h2, h3, h4⟩ := inv.rs_ok
          refine ⟨rl, h1, h2, ?_, ?_⟩
          · intro i' hi' h
            have h5 : upd c.gs i AGState.exited i' = AGState.done := h
            by_cases hii : i' = i
            · rw [hii, upd_eq] at h5; exact AGState.noConfusion h5
            · rw [upd_ne _ _ _ _ hii] at h5; exact h3 i' hi' h5
          · intro i' hi' h
            by_cases hii : i' = i
            · refine h4 i' hi' ?_
              rw [hii, hgs]
              exact fun hh => AGState.noConfusion hh
            · refine h4 i' hi' ?_
              intro hh
              exact h ((upd_ne c.gs i i' _ hii).trans hh)
        · obtain ⟨el, h1, h2, h3, h4⟩ := inv.errs_ok
          refine ⟨el, h1, h2, ?_, ?_⟩
          · intro i' hi' h
            have h5 : upd c.gs i AGState.exited i' = AGState.done := h
            by_cases hii : i' = i
            · rw [hii, upd_eq] at h5; exact AGState.noConfusion h5
            · rw [upd_ne _ _ _ _ hii] at h5; exact h3 i' hi' h5
          · intro i' hi' h
            by_cases hii : i' = i
            · refine h4 i' hi' ?_
              rw [hii, hgs]
              exact fun hh => AGState.noConfusion hh
            · refine h4 i' hi' ?_
              intro hh
              exact h ((upd_ne c.gs i i' _ hii).trans hh)
        · intro h i' hi'
          have hterm := inv.passed_terminal h i hi
          rw [hgs] at hterm
          exact Bool.noConfusion hterm
        · intro h0
          exact (hnofresh h0).elim
      · next hcanc =>
        -- the goroutine invokes its operation
        refine ⟨?_, ?_, ?_, ?_, ?_, inv.returned_cancelled, inv.fresh_cancel, ?_⟩
        · intro i' hi'
          have hne : i' ≠ i := by omega
          show upd c.gs i (AGState.ran { res := f.res, err := f.err, index := 0 }) i' = .start
          rw [upd_ne _ _ _ _ hne]
          exact inv.oob i' hi'
        · intro i' r h
          have h2 : upd c.gs i (AGState.ran { res := f.res, err := f.err, index := 0 }) i'
              = AGState.ran r := h
          by_cases hii : i' = i
          · rw [hii, upd_eq] at h2
            have hrr : ({ res := f.res, err := f.err, index := 0 } : response) = r := by
              injection h2
            rw [hii, ← hrr]
            simp only [respOf, hops]
          · rw [upd_ne _ _ _ _ hii] at h2
            exact inv.ran_ok i' r h2
        · obtain ⟨rl, h1, h2, h3, h4⟩ := inv.rs_ok
          refine ⟨rl, h1, h2, ?_, ?_⟩
          · intro i' hi' h
            have h5 : upd c.gs i _ i' = AGState.done := h
            by_cases hii : i' = i
            · rw [hii, upd_eq] at h5; exact AGState.noConfusion h5
            · rw [upd_ne _ _ _ _ hii] at h5; exact h3 i' hi' h5
          · intro i' hi' h
            by_cases hii : i' = i
            · refine h4 i' hi' ?_
              rw [hii, hgs]
              exact fun hh => AGState.noConfusion hh
            · refine h4 i' hi' ?_
              intro hh
              exact h ((upd_ne c.gs i i' _ hii).trans hh)
        · obtain ⟨el, h1, h2, h3, h4⟩ := inv.errs_ok
          refine ⟨el, h1, h2, ?_, ?_⟩
          · intro i' hi' h
            have h5 : upd c.gs i _ i' = AGState.done := h
            by_cases hii : i' = i
            · rw [hii, upd_eq] at h5; exact AGState.noConfusion h5
            · rw [upd_ne _ _ _ _ hii] at h5; exact h3 i' hi' h5
          · intro i' hi' h
            by_cases hii : i' = i
            · refine h4 i' hi' ?_
              rw [hii, hgs]
              exact fun hh => AGState.noConfusion hh
            · refine h4 i' hi' ?_
              intro hh
              exact h ((upd_ne c.gs i i' _ hii).trans hh)
        · intro h i' hi'
          have hterm := inv.passed_terminal h i hi
          rw [hgs] at hterm
          exact Bool.noConfusion hterm
        · intro h0 i'
          by_cases hii : i' = i
          · rw [hii]
            show upd c.gs i _ i ≠ AGState.exited
            rw [upd_eq]
            exact fun hh => AGState.noConfusion hh
          · show upd c.gs i _ i' ≠ AGState.exited
            rw [upd_ne _ _ _ _ hii]
            exact inv.fresh_noexit h0 i'
    · next r hgs =>
      split
      · next hcanc =>
        -- the goroutine sees the cancelled context after its operation and exits
        refine ⟨?_, ?_, ?_, ?_, ?_, inv.returned_cancelled, inv.fresh_cancel, ?_⟩
        · intro i' hi'
          have hne : i' ≠ i := by omega
          show upd c.gs i .exited i' = .start
          rw [upd_ne _ _ _ _ hne]
          exact inv.oob i' hi'
        · intro i' r' h
          have h2 : upd c.gs i AGState.exited i' = AGState.ran r' := h
          by_cases hii : i' = i
          · rw [hii, upd_eq] at h2; exact AGState.noConfusion h2
          · rw [upd_ne _ _ _ _ hii] at h2; exact inv.ran_ok i' r' h2
        · obtain ⟨rl, h1, h2, h3, h4⟩ := inv.rs_ok
          refine ⟨rl, h1, h2, ?_, ?_⟩
          · intro i' hi' h
            have h5 : upd c.gs i AGState.exited i' = AGState.done := h
            by_cases hii : i' = i
            · rw [hii, upd_eq] at h5; exact AGState.noConfusion h5
            · rw [upd_ne _ _ _ _ hii] at h5; exact h3 i' hi' h5
          · intro i' hi' h
            by_cases hii : i' = i
            · refine h4 i' hi' ?_
              rw [hii, hgs]
              exact fun hh => AGState.noConfusion hh
            · refine h4 i' hi' ?_
              intro hh
              exact h ((upd_ne c.gs i i' _ hii).trans hh)
        · obtain ⟨el, h1, h2, h3, h4⟩ := inv.errs_ok
          refine ⟨el, h1, h2, ?_, ?_⟩
          · intro i' hi' h
            have h5 : upd c.gs i AGState.exited i' = AGState.done := h
            by_cases hii : i' = i
            · rw [hii, upd_eq] at h5; exact AGState.noConfusion h5
            · rw [upd_ne _ _ _ _ hii] at h5; exact h3 i' hi' h5
          · intro i' hi' h
            by_cases hii : i' = i
            · refine h4 i' hi' ?_
              rw [hii, hgs]
              exact fun hh => AGState.noConfusion hh
            · refine h4 i' hi' ?_
              intro hh
              exact h ((upd_ne c.gs i i' _ hii).trans hh)
        · intro h i' hi'
          have hterm := inv.passed_terminal h i hi
          rw [hgs] at hterm
          exact Bool.noConfusion hterm
        · intro h0
          have hret := inv.fresh_cancel h0 hcanc
          have hterm := inv.passed_terminal (Or.inr hret) i hi
          rw [hgs] at hterm
          exact absurd hterm (by simp [AGState.terminal])
      · next hcanc =>
        -- the goroutine writes `rs[index]` and `errs[index]`
        refine ⟨?_, ?_, ?_, ?_, ?_, inv.returned_cancelled, inv.fresh_cancel, ?_⟩
        · intro i' hi'
          have hne : i' ≠ i := by omega
          show upd c.gs i .done i' = .start
          rw [upd_ne _ _ _ _ hne]
          exact inv.oob i' hi'
        · intro i' r' h
          have h2 : upd c.gs i AGState.done i' = AGState.ran r' := h
          by_cases hii : i' = i
          · rw [hii, upd_eq] at h2; exact AGState.noConfusion h2
          · rw [upd_ne _ _ _ _ hii] at h2; exact inv.ran_ok i' r' h2
        · obtain ⟨rl, h1, h2, h3, h4⟩ := inv.rs_ok
          refine ⟨rl.set i r.res, ?_, ?_, ?_, ?_⟩
          · show c.rs.map (fun l => l.set i r.res) = some (rl.set i r.res)
            rw [h1]
            rfl
          · rw [List.length_set]
            exact h2
          · intro i' hi' h
            by_cases hii : i' = i
            · rw [hii]
              have hlt : i < rl.length := by rw [h2]; exact hi
              rw [List.get?_set_eq_of_lt r.res hlt, inv.ran_ok i r hgs]
            · have h5 : upd c.gs i AGState.done i' = AGState.done := h
              rw [upd_ne _ _ _ _ hii] at h5
              rw [List.get?_set_ne _ _ (fun hh => hii hh.symm)]
              exact h3 i' hi' h5
          · intro i' hi' h
            by_cases hii : i' = i
            · exact absurd (by rw [hii, upd_eq] : upd c.gs i AGState.done i' = AGState.done) h
            · have h5 : c.gs i' ≠ AGState.done := by
                intro hh
                exact h ((upd_ne c.gs i i' _ hii).trans hh)
              rw [List.get?_set_ne _ _ (fun hh => hii hh.symm)]
              exact h4 i' hi' h5
        · obtain ⟨el, h1, h2, h3, h4⟩ := inv.errs_ok
          refine ⟨el.set i r.err, ?_, ?_, ?_, ?_⟩
          · show c.errs.map (fun l => l.set i r.err) = some (el.set i r.err)
            rw [h1]
            rfl
          · rw [List.length_set]
            exact h2
          · intro i' hi' h
            by_cases hii : i' = i
            · rw [hii]
              have hlt : i < el.length := by rw [h2]; exact hi
              rw [List.get?_set_eq_of_lt r.err hlt, inv.ran_ok i r hgs]
            · have h5 : upd c.gs i AGState.done i' = AGState.done := h
              rw [upd_ne _ _ _ _ hii] at h5
              rw [List.get?_set_ne _ _ (fun hh => hii hh.symm)]
              exact h3 i' hi' h5
          · intro i' hi' h
            by_cases hii : i' = i
            · exact absurd (by rw [hii, upd_eq] : upd c.gs i AGState.done i' = AGState.done) h
            · have h5 : c.gs i' ≠ AGState.done := by
                intro hh
                exact h ((upd_ne c.gs i i' _ hii).trans hh)
              rw [List.get?_set_ne _ _ (fun hh => hii hh.symm)]
              exact h4 i' hi' h5
        · intro h i' hi'
          have hterm := inv.passed_terminal h i hi
          rw [hgs] at hterm
          exact Bool.noConfusion hterm
        · intro h0 i'
          by_cases hii : i' = i
          · rw [hii]
            show upd c.gs i AGState.done i ≠ AGState.exited
            rw [upd_eq]
            exact fun hh => AGState.noConfusion hh
          · show upd c.gs i AGState.done i' ≠ AGState.exited
            rw [upd_ne _ _ _ _ hii]
            exact inv.fresh_noexit h0 i'
    · exact inv
    · exact inv

theorem allStepMain_inv {ops : List AsyncFunc} {c0 : Bool} {c : AllConfig}
    (inv : AllInv ops c0 c) : AllInv ops c0 (allStepMain ops c) := by
  unfold allStepMain
  split
  · next hm =>
    split
    · next hall =>
      refine ⟨inv.oob, inv.ran_ok, inv.rs_ok, inv.errs_ok, ?_, ?_, ?_, inv.fresh_noexit⟩
      · intro _ i hi
        exact List.all_eq_true.mp hall i (List.mem_range.mpr hi)
      · intro h
        have h2 : AMain.passed = AMain.returned := h
        exact AMain.noConfusion h2
      · intro h0 hc
        have hret := inv.fresh_cancel h0 hc
        rw [hm] at hret
        exact AMain.noConfusion hret
    · exact inv
  · next hm =>
    refine ⟨inv.oob, inv.ran_ok, inv.rs_ok, inv.errs_ok, ?_, fun _ => rfl, fun _ _ => rfl,
      inv.fresh_noexit⟩
    intro _ i hi
    exact inv.passed_terminal (Or.inl hm) i hi
  · exact inv

theorem allStep_inv {ops : List AsyncFunc} {c0 : Bool} {c : AllConfig}
    (inv : AllInv ops c0 c) : ∀ l, AllInv ops c0 (allStep ops c l)
  | .g i => allStepG_inv inv i
  | .main => allStepMain_inv inv

theorem allRun_inv (ops : List AsyncFunc) (c0 : Bool) (sched : List Label) :
    AllInv ops c0 (allRun ops c0 sched) := by
  unfold allRun
  have h : ∀ (s : List Label) (c : AllConfig), AllInv ops c0 c →
      AllInv ops c0 (s.foldl (allStep ops) c) := by
    intro s
    induction s with
    | nil => intro c hc; exact hc
    | cons l t ih =>
      intro c hc
      exact ih _ (allStep_inv hc l)
  exact h sched _ (allInit_inv ops c0)

/-- What one goroutine step does on a dead configuration: it can only
turn `start` into `exited` and touches nothing else; in particular the
goroutine it names is exited afterwards whenever it exists. -/
theorem allStepG_dead_facts {ops : List AsyncFunc} {c : AllConfig}
    (hcanc : c.cancelled = true) (hdead : ∀ i, c.gs i = .start ∨ c.gs i = .exited) (a : Nat) :
    (allStepG ops c a).cancelled = true ∧ (allStepG ops c a).rs = c.rs ∧
    (allStepG ops c a).errs = c.errs ∧ (allStepG ops c a).main = c.main ∧
    (∀ i, (allStepG ops c a).gs i = .start ∨ (allStepG ops c a).gs i = .exited) ∧
    (a < ops.length → (allStepG ops c a).gs a = .exited) ∧
    (∀ i, c.gs i = .exited → (allStepG ops c a).gs i = .exited) := by
  unfold allStepG
  split
  · next hops =>
    refine ⟨hcanc, rfl, rfl, rfl, hdead, ?_, fun i h => h⟩
    intro hlt
    have := List.get?_eq_none.mp hops
    omega
  · next f hops =>
    split
    · next hgs =>
      split
      · refine ⟨hcanc, rfl, rfl, rfl, ?_, ?_, ?_⟩
        · intro i'
          show upd c.gs a AGState.exited i' = _ ∨ upd c.gs a AGState.exited i' = _
          by_cases hii : i' = a
          · rw [hii, upd_eq]; right; rfl
          · rw [upd_ne _ _ _ _ hii]; exact hdead i'
        · intro _
          show upd c.gs a AGState.exited a = .exited
          exact upd_eq _ _ _
        · intro i hex
          show upd c.gs a AGState.exited i = .exited
          by_cases hii : i = a
          · rw [hii, upd_eq]
          · rw [upd_ne _ _ _ _ hii]; exact hex
      · next hcanc2 => exact absurd hcanc hcanc2
    · next r hgs =>
      rcases hdead a with h1 | h1 <;> rw [hgs] at h1 <;> exact AGState.noConfusion h1
    · next hgs =>
      exact ⟨hcanc, rfl, rfl, rfl, hdead, fun _ => hgs, fun i h => h⟩
    · next hgs =>
      rcases hdead a with h1 | h1 <;> rw [hgs] at h1 <;> exact AGState.noConfusion h1

/-- Running any sequence of goroutine steps of `All` on a dead
configuration only flips `start` goroutines to `exited`; the named
goroutines that exist are all exited afterwards. -/
theorem allDeadGRun (ops : List AsyncFunc) :
    ∀ (l : List Nat) (c : AllConfig), c.cancelled = true →
      (∀ i, c.gs i = .start ∨ c.gs i = .exited) →
      ((l.map Label.g).foldl (allStep ops) c).cancelled = true ∧
      ((l.map Label.g).foldl (allStep ops) c).rs = c.rs ∧
      ((l.map Label.g).foldl (allStep ops) c).errs = c.errs ∧
      ((l.map Label.g).foldl (allStep ops) c).main = c.main ∧
      (∀ i, ((l.map Label.g).foldl (allStep ops) c).gs i = .start ∨
        ((l.map Label.g).foldl (allStep ops) c).gs i = .exited) ∧
      (∀ i, i ∈ l → i < ops.length → ((l.map Label.g).foldl (allStep ops) c).gs i = .exited) ∧
      (∀ i, c.gs i = .exited → ((l.map Label.g).foldl (allStep ops) c).gs i = .exited) := by
  intro l
  induction l with
  | nil =>
    intro c hcanc hdead
    exact ⟨hcanc, rfl, rfl, rfl, hdead, fun i hi => absurd hi (List.not_mem_nil i), fun i h => h⟩
  | cons a t ih =>
    intro c hcanc hdead
    rw [List.map_cons, List.foldl_cons]
    obtain ⟨s1, s2, s3, s4, s5, s6, s7⟩ := @allStepG_dead_facts ops c hcanc hdead a
    obtain ⟨r1, r2, r3, r4, r5, r6, r7⟩ := ih (allStep ops c (.g a)) s1 s5
    refine ⟨r1, r2.trans s2, r3.trans s3, r4.trans s4, r5, ?_, fun i h => r7 i (s7 i h)⟩
    intro i hi hlt
    rcases List.mem_cons.mp hi with hia | hit
    · subst hia
      exact r7 i (s6 hlt)
    · exact r6 i hit hlt

theorem allStepMain_waiting_pass (ops : List AsyncFunc) (c : AllConfig)
    (hm : c.main = .waiting)
    (hall : (List.range ops.length).all (fun i => (c.gs i).terminal) = true) :
    allStepMain ops c = { c with main := .passed } := by
  unfold allStepMain
  rw [hm]
  rw [if_pos hall]

theorem allStepMain_passed (ops : List AsyncFunc) (c : AllConfig) (hm : c.main = .passed) :
    allStepMain ops c = { c with cancelled := true, main := .returned } := by
  unfold allStepMain
  rw [hm]

/-- On an engine whose derived context is already cancelled, `All` can
return without any goroutine doing more than observing the cancelled
context: scheduling each goroutine once and the caller twice completes
the call, with both output slices still zero-filled. -/
theorem allCancelled_returns (ops : List AsyncFunc) :
    All ops true ((List.range ops.length).map Label.g ++ [Label.main, Label.main]) =
      some (some (List.replicate ops.length none), some (List.replicate ops.length none)) := by
  unfold All allRun
  rw [List.foldl_append]
  obtain ⟨r1, r2, r3, r4, r5, r6, r7⟩ :=
    allDeadGRun ops (List.range ops.length) (allInit ops true) rfl (fun _ => Or.inl rfl)
  set c1 := (((List.range ops.length).map Label.g).foldl (allStep ops) (allInit ops true)) with hc1
  have hall : (List.range ops.length).all (fun i => (c1.gs i).terminal) = true := by
    refine List.all_eq_true.mpr ?_
    intro i hi
    have hlt : i < ops.length := List.mem_range.mp hi
    rw [r6 i (List.mem_range.mpr hlt) hlt]
    rfl
  have hstep1 : allStep ops c1 Label.main = { c1 with main := .passed } :=
    allStepMain_waiting_pass ops c1 r4 hall
  have hstep2 : allStep ops { c1 with main := .passed } Label.main
      = { c1 with cancelled := true, main := .returned } :=
    allStepMain_passed ops { c1 with main := .passed } rfl
  show (match ([Label.main, Label.main].foldl (allStep ops) c1).main with
    | AMain.returned => some (([Label.main, Label.main].foldl (allStep ops) c1).rs,
        ([Label.main, Label.main].foldl (allStep ops) c1).errs)
    | _ => none) = _
  have hfold : [Label.main, Label.main].foldl (allStep ops) c1
      = { c1 with cancelled := true, main := .returned } := by
    rw [List.foldl_cons, List.foldl_cons, List.foldl_nil, hstep1, hstep2]
  rw [hfold]
  show some (c1.rs, c1.errs) = _
  rw [r2, r3]
  rfl

theorem allStepG_dead {ops : List AsyncFunc} {c : AllConfig} (h : AllDead ops c) (i : Nat) :
    AllDead ops (allStepG ops c i) := by
  obtain ⟨s1, s2, s3, _, s5, _, _⟩ := @allStepG_dead_facts ops c h.cancel_true h.gs_dead i
  exact ⟨s1, s5, s2.trans h.rs_eq, s3.trans h.errs_eq⟩

theorem allStepMain_dead {ops : List AsyncFunc} {c : AllConfig} (h : AllDead ops c) :
    AllDead ops (allStepMain ops c) := by
  unfold allStepMain
  split
  · split
    · exact ⟨h.cancel_true, h.gs_dead, h.rs_eq, h.errs_eq⟩
    · exact h
  · exact ⟨rfl, h.gs_dead, h.rs_eq, h.errs_eq⟩
  · exact h

theorem allRun_dead (ops : List AsyncFunc) (sched : List Label) :
    AllDead ops (allRun ops true sched) := by
  unfold allRun
  have h : ∀ (s : List Label) (c : AllConfig), AllDead ops c →
      AllDead ops (s.foldl (allStep ops) c) := by
    intro s
    induction s with
    | nil => intro c hc; exact hc
    | cons l t ih =>
      intro c hc
      refine ih _ ?_
      cases l with
      | g i => exact allStepG_dead hc i
      | main => exact allStepMain_dead hc
  exact h sched _ ⟨rfl, fun _ => Or.inl rfl, rfl, rfl⟩

theorem raceLoopBody_returns (c1 c2 : Bool) (f : AsyncFunc) (index n : Nat) :
    ∃ e ch iv, raceLoopBody c1 c2 f index n = (some e, ch, iv) ∧ ch ≤ 2 ∧ iv ≤ 1 := by
  unfold raceLoopBody
  split
  · exact ⟨_, _, _, rfl, by omega, by omega⟩
  · split
    · exact ⟨_, _, _, rfl, by omega, by omega⟩
    · split
      · exact ⟨_, _, _, rfl, by omega, by omega⟩
      · exact ⟨_, _, _, rfl, by omega, by omega⟩

theorem allLoopBody_returns (c1 c2 : Bool) (f : AsyncFunc) :
    ∃ e ch iv, allLoopBody c1 c2 f = (some e, ch, iv) ∧ ch ≤ 2 ∧ iv ≤ 1 := by
  unfold allLoopBody
  split
  · exact ⟨_, _, _, rfl, by omega, by omega⟩
  · split
    · exact ⟨_, _, _, rfl, by omega, by omega⟩
    · exact ⟨_, _, _, rfl, by omega, by omega⟩

/-! ## Claim theorems -/

/-- C5: for the empty list of operations, `Race` never returns: no
execution is launched (every goroutine slot stays untouched at `start`
and there are none to launch), nothing is ever published to the result
channel, and the receive blocks forever, under every schedule and
whatever the state of the engine's context. -/
theorem race_empty_blocks_forever (c0 : Bool) (sched : List Label) :
    Race [] c0 sched = none ∧
    (raceRun [] c0 sched).buf = none ∧
    (∀ i, (raceRun [] c0 sched).gs i = .start) ∧
    (raceRun [] c0 sched).main = .waiting := by
  have h := raceRun_nil c0 sched
  refine ⟨?_, ?_, ?_, ?_⟩
  · unfold Race
    rw [h]
    rfl
  · rw [h]
    rfl
  · intro i
    rw [h]
    rfl
  · rw [h]
    rfl

/-- C7: `New` accepts an optional parent cancellation scope; when the
supplied scope is absent (`nil`), it uses the never-cancelling root scope
`context.Background()`; it derives exactly one child scope with its
trigger at construction (the `gollback` record holds exactly that one
derived scope, with the trigger not yet fired), and it never fails (it is
a total function). -/
theorem new_derives_single_scope (octx : Option goCtx) :
    New none = { parentCancelled := Background.cancelled, cancelFlag := false } ∧
    Background.cancelled = false ∧
    (∀ pc : goCtx, New (some pc) = { parentCancelled := pc.cancelled, cancelFlag := false }) ∧
    (New octx).cancelFlag = false ∧
    (New octx).ctxDone = (New octx).parentCancelled := by
  refine ⟨rfl, rfl, fun pc => rfl, ?_, ?_⟩
  · cases octx <;> rfl
  · cases octx with
    | none => rfl
    | some pc =>
      show (pc.cancelled || false) = pc.cancelled
      exact Bool.or_false _

/-- C10: `All` called with zero operations returns immediately — a
schedule consisting of the caller's two steps alone completes the call,
with no goroutine step needed — and yields two non-nil (`some`) sequences
of length zero, having triggered the engine's shared cancellation signal
before returning. -/
theorem all_empty_returns_immediately (c0 : Bool) :
    All [] c0 [Label.main, Label.main] = some (some [], some []) ∧
    (allRun [] c0 [Label.main, Label.main]).cancelled = true := by
  cases c0 <;> exact ⟨by decide, by decide⟩

/-- C8: in both `Race` and `All`, each launched execution runs its loop
body at most once — running with any amount of fuel equals running with
fuel for a single pass — and during the call it checks the cancellation
signal non-blockingly at most twice (once in the `select` before
invoking the operation, once via `p.ctx.Err()` after) and invokes its
operation at most once; there is no actual spin-looping despite the
`for` construct. -/
theorem goroutine_loop_body_once (fuel : Nat) (c1 c2 : Bool) (f : AsyncFunc) (index n : Nat)
    (hfuel : 1 ≤ fuel) :
    raceGoroutine fuel c1 c2 f index n = raceGoroutine 1 c1 c2 f index n ∧
    (raceGoroutine fuel c1 c2 f index n).1.isSome = true ∧
    (raceGoroutine fuel c1 c2 f index n).2.1 ≤ 2 ∧
    (raceGoroutine fuel c1 c2 f index n).2.2 ≤ 1 ∧
    allGoroutine fuel c1 c2 f = allGoroutine 1 c1 c2 f ∧
    (allGoroutine fuel c1 c2 f).1.isSome = true ∧
    (allGoroutine fuel c1 c2 f).2.1 ≤ 2 ∧
    (allGoroutine fuel c1 c2 f).2.2 ≤ 1 := by
  obtain ⟨k, rfl⟩ : ∃ k, fuel = k + 1 := ⟨fuel - 1, by omega⟩
  obtain ⟨e, ch, iv, hb, hch, hiv⟩ := raceLoopBody_returns c1 c2 f index n
  obtain ⟨e2, ch2, iv2, hb2, hch2, hiv2⟩ := allLoopBody_returns c1 c2 f
  have h1 : ∀ m : Nat, raceGoroutine (m + 1) c1 c2 f index n = (some e, ch, iv) := by
    intro m
    unfold raceGoroutine
    rw [hb]
  have h2 : ∀ m : Nat, allGoroutine (m + 1) c1 c2 f = (some e2, ch2, iv2) := by
    intro m
    unfold allGoroutine
    rw [hb2]
  rw [h1 k, h1 0, h2 k, h2 0]
  exact ⟨rfl, rfl, hch, hiv, rfl, rfl, hch2, hiv2⟩

/-- Witness for C8 at concrete inputs: fuel 5, an uncancelled context at
both checks, a succeeding operation at index 0 of 2. -/
theorem goroutine_loop_body_once_witness :
    raceGoroutine 5 false false { res := some 1, err := none } 0 2
        = raceGoroutine 1 false false { res := some 1, err := none } 0 2 ∧
    (raceGoroutine 5 false false { res := some 1, err := none } 0 2).1.isSome = true ∧
    (raceGoroutine 5 false false { res := some 1, err := none } 0 2).2.1 ≤ 2 ∧
    (raceGoroutine 5 false false { res := some 1, err := none } 0 2).2.2 ≤ 1 ∧
    allGoroutine 5 false false { res := some 1, err := none }
        = allGoroutine 1 false false { res := some 1, err := none } ∧
    (allGoroutine 5 false false { res := some 1, err := none }).1.isSome = true ∧
    (allGoroutine 5 false false { res := some 1, err := none }).2.1 ≤ 2 ∧
    (allGoroutine 5 false false { res := some 1, err := none }).2.2 ≤ 1 :=
  goroutine_loop_body_once 5 false false { res := some 1, err := none } 0 2 (by decide)

/-- C1 (amended): whenever `Race` returns, under any schedule, the pair
it returns is the result of some operation that either completed with no
error or is the last-indexed operation (the designated fallback); the
winner is the first operation to publish, which need not be the first
operation to complete successfully; and when every operation fails, the
returned pair is exactly the last-indexed operation's outcome, regardless
of which operation failed or finished first. -/
theorem race_winner_characterization (ops : List AsyncFunc) (c0 : Bool) (sched : List Label)
    (v : GoVal) (e : GoErr) (h : Race ops c0 sched = some (v, e)) :
    (∃ i, i < ops.length ∧ v = (respOf ops i).res ∧ e = (respOf ops i).err ∧
      ((respOf ops i).err = none ∨ i = ops.length - 1)) ∧
    ((∀ f ∈ ops, f.err ≠ none) →
      v = (respOf ops (ops.length - 1)).res ∧ e = (respOf ops (ops.length - 1)).err) := by
  have inv := raceRun_inv ops c0 sched
  unfold Race at h
  cases hm : (raceRun ops c0 sched).main with
  | waiting => rw [hm] at h; exact Option.noConfusion h
  | received r =>
    rw [hm] at h
    have hpair : (r.res, r.err) = (v, e) := by injection h
    have hpv : r.res = v := congrArg Prod.fst hpair
    have hpe : r.err = e := congrArg Prod.snd hpair
    obtain ⟨⟨i, hi, hresp, hcond⟩, _⟩ := inv.main_ok r hm
    have hv : v = (respOf ops i).res := by rw [← hpv, hresp]
    have he : e = (respOf ops i).err := by rw [← hpe, hresp]
    have hcond2 : (respOf ops i).err = none ∨ i = ops.length - 1 := by
      rw [← hresp]
      exact hcond
    refine ⟨⟨i, hi, hv, he, hcond2⟩, ?_⟩
    intro hall
    have hlast : i = ops.length - 1 := by
      rcases hcond2 with hnone | hlast
      · exfalso
        cases hf : ops.get? i with
        | none =>
          have := List.get?_eq_none.mp hf
          omega
        | some f =>
          have hferr : (respOf ops i).err = f.err := by simp only [respOf, hf]
          exact hall f (List.get?_mem hf) (by rw [← hferr]; exact hnone)
      · exact hlast
    rw [hlast] at hv he
    exact ⟨hv, he⟩

/-- Counterexample to C1 as stated: both operations succeed.  After the
schedule's first step, operation 0 has completed successfully (its
goroutine holds the returned response) while operation 1 has not even
been invoked; yet continuing the same schedule, `Race` returns
operation 1's value, not operation 0's, because operation 1 reaches the
publish first.  So the winner is not "the first operation to complete
successfully". -/
theorem race_first_success_counterexample :
    (raceRun [{ res := some 1, err := none }, { res := some 2, err := none }] false
        [.g 0]).gs 0 = .ran { res := some 1, err := none, index := 0 } ∧
    (raceRun [{ res := some 1, err := none }, { res := some 2, err := none }] false
        [.g 0]).gs 1 = .start ∧
    Race [{ res := some 1, err := none }, { res := some 2, err := none }] false
        [.g 0, .g 1, .g 1, .g 1, .g 1, .main] = some (some 2, none) ∧
    (some 2 : GoVal) ≠ (some 1 : GoVal) :=
  ⟨by decide, by decide, by decide, by decide⟩

/-- Witness for C1's amended theorem: two operations that both fail,
scheduled so that operation 0 fails and finishes first; the returned
pair is the last-indexed operation's outcome. -/
theorem race_winner_characterization_witness :
    (none : GoVal) = (respOf [{ res := none, err := some 7 },
        { res := none, err := some 8 }] 1).res ∧
    (some 8 : GoErr) = (respOf [{ res := none, err := some 7 },
        { res := none, err := some 8 }] 1).err :=
  (race_winner_characterization
    [{ res := none, err := some 7 }, { res := none, err := some 8 }]
    false [.g 0, .g 0, .g 1, .g 1, .g 1, .g 1, .main] none (some 8) (by decide)).2 (by decide)

/-- C2: whenever `All` returns, under any schedule, it returns two
non-nil sequences of length exactly `len(fns)`, and at every position `i`
they hold exactly operation `i`'s own result — or the zero values when
that execution exited on cancellation — independently of the order in
which operations complete. -/
theorem all_positional_results (ops : List AsyncFunc) (c0 : Bool) (sched : List Label)
    (p : Option (List GoVal) × Option (List GoErr)) (h : All ops c0 sched = some p) :
    ∃ rl el, p = (some rl, some el) ∧ rl.length = ops.length ∧ el.length = ops.length ∧
      ∀ i, i < ops.length →
        (rl.get? i = some (respOf ops i).res ∧ el.get? i = some (respOf ops i).err) ∨
        ((allRun ops c0 sched).gs i = .exited ∧ rl.get? i = some none ∧
          el.get? i = some none) := by
  have inv := allRun_inv ops c0 sched
  unfold All at h
  cases hm : (allRun ops c0 sched).main with
  | waiting => rw [hm] at h; exact Option.noConfusion h
  | passed => rw [hm] at h; exact Option.noConfusion h
  | returned =>
    rw [hm] at h
    obtain ⟨rl, hrl, hlen, h3, h4⟩ := inv.rs_ok
    obtain ⟨el, hel, hlen2, h5, h6⟩ := inv.errs_ok
    have hp : ((allRun ops c0 sched).rs, (allRun ops c0 sched).errs) = p := by injection h
    refine ⟨rl, el, ?_, hlen, hlen2, ?_⟩
    · rw [← hp, hrl, hel]
    · intro i hi
      have hterm := inv.passed_terminal (Or.inr hm) i hi
      rcases (terminal_iff _).mp hterm with hex | hdone
      · right
        refine ⟨hex, h4 i hi ?_, h6 i hi ?_⟩ <;>
          exact fun hh => AGState.noConfusion (hex ▸ hh)
      · left
        exact ⟨h3 i hi hdone, h5 i hi hdone⟩

/-- Witness for C2: a succeeding and a failing operation, completing out
of order (operation 1 finishes first); positions still match. -/
theorem all_positional_results_witness :
    ∃ rl el,
      ((some [some 1, none] : Option (List GoVal)),
        (some [none, some 5] : Option (List GoErr))) = (some rl, some el) ∧
      rl.length = 2 ∧ el.length = 2 ∧
      ∀ i, i < 2 →
        (rl.get? i = some (respOf [{ res := some 1, err := none },
            { res := none, err := some 5 }] i).res ∧
          el.get? i = some (respOf [{ res := some 1, err := none },
            { res := none, err := some 5 }] i).err) ∨
        ((allRun [{ res := some 1, err := none }, { res := none, err := some 5 }] false
            [.g 1, .g 1, .g 0, .g 0, .main, .main]).gs i = .exited ∧
          rl.get? i = some none ∧ el.get? i = some none) :=
  all_positional_results [{ res := some 1, err := none }, { res := none, err := some 5 }]
    false [.g 1, .g 1, .g 0, .g 0, .main, .main]
    (some [some 1, none], some [none, some 5]) (by decide)

/-- C3: under any schedule, `All` has not returned unless every launched
execution is terminal (wrote its slot or exited); on a fresh engine the
shared cancellation signal is triggered only at the completion barrier
(if the signal is on, the call has passed the barrier and returned), so
the trigger happens after the barrier and before the return; and `All`
never short-circuits on an operation's error: on a fresh engine every
execution runs to completion and writes its slot before the call
returns. -/
theorem all_barrier_then_cancel (ops : List AsyncFunc) (c0 : Bool) (sched : List Label) :
    ((allRun ops c0 sched).main = .returned →
      (∀ i, i < ops.length → ((allRun ops c0 sched).gs i).terminal = true) ∧
      (allRun ops c0 sched).cancelled = true) ∧
    (c0 = false → (allRun ops c0 sched).cancelled = true →
      (allRun ops c0 sched).main = .returned ∧
      ∀ i, i < ops.length → ((allRun ops c0 sched).gs i).terminal = true) ∧
    (c0 = false → (allRun ops c0 sched).main = .returned →
      ∀ i, i < ops.length → (allRun ops c0 sched).gs i = .done) := by
  have inv := allRun_inv ops c0 sched
  refine ⟨?_, ?_, ?_⟩
  · intro hm
    exact ⟨inv.passed_terminal (Or.inr hm), inv.returned_cancelled hm⟩
  · intro h0 hc
    have hm := inv.fresh_cancel h0 hc
    exact ⟨hm, inv.passed_terminal (Or.inr hm)⟩
  · intro h0 hm i hi
    have hterm := inv.passed_terminal (Or.inr hm) i hi
    rcases (terminal_iff _).mp hterm with hex | hdone
    · exact absurd hex (inv.fresh_noexit h0 i)
    · exact hdone

/-- Witness for C3: a two-operation run on a fresh engine that returns;
the signal is on at return and both executions wrote their slots. -/
theorem all_barrier_then_cancel_witness :
    (allRun [{ res := some 1, err := none }, { res := none, err := some 5 }] false
      [.g 0, .g 0, .g 1, .g 1, .main, .main]).cancelled = true ∧
    (allRun [{ res := some 1, err := none }, { res := none, err := some 5 }] false
      [.g 0, .g 0, .g 1, .g 1, .main, .main]).gs 0 = .done ∧
    (allRun [{ res := some 1, err := none }, { res := none, err := some 5 }] false
      [.g 0, .g 0, .g 1, .g 1, .main, .main]).gs 1 = .done :=
  ⟨((all_barrier_then_cancel [{ res := some 1, err := none }, { res := none, err := some 5 }]
      false [.g 0, .g 0, .g 1, .g 1, .main, .main]).1 (by decide)).2,
   (all_barrier_then_cancel [{ res := some 1, err := none }, { res := none, err := some 5 }]
      false [.g 0, .g 0, .g 1, .g 1, .main, .main]).2.2 rfl (by decide) 0 (by decide),
   (all_barrier_then_cancel [{ res := some 1, err := none }, { res := none, err := some 5 }]
      false [.g 0, .g 0, .g 1, .g 1, .main, .main]).2.2 rfl (by decide) 1 (by decide)⟩

/-- C6: whenever a `Race` or `All` call returns, under any schedule, the
engine's derived cancellation signal was triggered before the return
(every send on `out` is preceded by `p.cancel()`, and `All`'s caller
cancels before returning); and once the signal is on, an execution that
is about to check it at its `select` exits without invoking its
operation, so no execution that checks the signal continues past its
next check after the call returns. -/
theorem cancel_triggered_before_return (ops : List AsyncFunc) (c0 : Bool)
    (schedR schedA : List Label) (r : response) (hne : ops ≠ []) :
    ((raceRun ops c0 schedR).main = .received r →
      (raceRun ops c0 schedR).cancelled = true) ∧
    ((allRun ops c0 schedA).main = .returned → (allRun ops c0 schedA).cancelled = true) ∧
    (∀ c : RaceConfig, c.cancelled = true → ∀ i f, ops.get? i = some f →
      c.gs i = .start → (raceStepG ops c i).gs i = .exited) ∧
    (∀ c : AllConfig, c.cancelled = true → ∀ i f, ops.get? i = some f →
      c.gs i = .start → (allStepG ops c i).gs i = .exited) := by
  refine ⟨?_, ?_, ?_, ?_⟩
  · intro hm
    exact ((raceRun_inv ops c0 schedR).main_ok r hm).2
  · intro hm
    exact (allRun_inv ops c0 schedA).returned_cancelled hm
  · intro c hc i f hf hgs
    have hf2 : ops[i]? = some f := by
      rw [← List.get?_eq_getElem?]
      exact hf
    simp [raceStepG, hf2, hgs, hc, upd]
  · intro c hc i f hf hgs
    have hf2 : ops[i]? = some f := by
      rw [← List.get?_eq_getElem?]
      exact hf
    simp [allStepG, hf2, hgs, hc, upd]

/-- Witness for C6: one succeeding operation; a `Race` run that returns
its value and an `All` run that returns; both final configurations have
the signal triggered. -/
theorem cancel_triggered_before_return_witness :
    (raceRun [{ res := some 1, err := none }] false
      [.g 0, .g 0, .g 0, .g 0, .main]).cancelled = true ∧
    (allRun [{ res := some 1, err := none }] false
      [.g 0, .g 0, .main, .main]).cancelled = true :=
  ⟨(cancel_triggered_before_return [{ res := some 1, err := none }] false
      [.g 0, .g 0, .g 0, .g 0, .main] [.g 0, .g 0, .main, .main]
      { res := some 1, err := none, index := 0 } (by decide)).1 (by decide),
   (cancel_triggered_before_return [{ res := some 1, err := none }] false
      [.g 0, .g 0, .g 0, .g 0, .main] [.g 0, .g 0, .main, .main]
      { res := some 1, err := none, index := 0 } (by decide)).2.1 (by decide)⟩

/-- C9 (amended): every send that completed on `Race`'s one-slot channel
is accounted for as either the single consumed response or the one
response still sitting in the buffer, so at most one publish is ever
consumed; with at most two operations a publishing execution never stays
blocked once the reader has moved on (the buffer slot is necessarily
free); but with three or more operations a publishing execution can
block forever on a reader that has already moved on (see the
counterexample). -/
theorem race_channel_discipline (ops : List AsyncFunc) (c0 : Bool) (sched : List Label)
    (r r' : response) (i : Nat) :
    sentCount ops.length (raceRun ops c0 sched).gs
        = buf01 (raceRun ops c0 sched).buf + recv01 (raceRun ops c0 sched).main ∧
    (ops.length ≤ 2 → (raceRun ops c0 sched).main = .received r →
      (raceRun ops c0 sched).gs i = .toSend r' → (raceRun ops c0 sched).buf = none) := by
  have inv := raceRun_inv ops c0 sched
  refine ⟨inv.count_ok, ?_⟩
  intro hn hm hts
  have hin : i < ops.length := by
    by_contra hni
    rw [inv.oob i (by omega)] at hts
    exact RGState.noConfusion hts
  have hnot : (fun j => decide ((raceRun ops c0 sched).gs j = RGState.sent)) i = false := by
    show decide ((raceRun ops c0 sched).gs i = RGState.sent) = false
    apply decide_eq_false
    intro hh
    rw [hts] at hh
    exact RGState.noConfusion hh
  have hbound := countP_lt_of_mem_false
    (fun j => decide ((raceRun ops c0 sched).gs j = RGState.sent))
    (List.mem_range.mpr hin) hnot
  have hc := inv.count_ok
  rw [hm] at hc
  have hlen := List.length_range ops.length
  cases hb : (raceRun ops c0 sched).buf with
  | none => rfl
  | some rb =>
    exfalso
    rw [hb] at hc
    unfold sentCount at hc
    simp only [buf01, recv01] at hc
    rw [hlen] at hbound
    omega

/-- Counterexample to C9 as stated: three operations that all succeed,
interleaved so that all three pass the `p.ctx.Err()` re-check before any
of them cancels.  All three publish; the caller consumes the first, the
buffer holds the second, and the third publisher is blocked in its send
even though the reader has already moved on — and stepping it again
leaves it blocked. -/
theorem race_publisher_blocks_counterexample :
    (raceRun [{ res := some 1, err := none }, { res := some 2, err := none },
        { res := some 3, err := none }] false
        [.g 0, .g 1, .g 2, .g 0, .g 1, .g 2, .g 0, .g 1, .g 2, .g 0, .main, .g 1, .g 2]).main
      = .received { res := some 1, err := none, index := 0 } ∧
    (raceRun [{ res := some 1, err := none }, { res := some 2, err := none },
        { res := some 3, err := none }] false
        [.g 0, .g 1, .g 2, .g 0, .g 1, .g 2, .g 0, .g 1, .g 2, .g 0, .main, .g 1, .g 2]).buf
      = some { res := some 2, err := none, index := 0 } ∧
    (raceRun [{ res := some 1, err := none }, { res := some 2, err := none },
        { res := some 3, err := none }] false
        [.g 0, .g 1, .g 2, .g 0, .g 1, .g 2, .g 0, .g 1, .g 2, .g 0, .main, .g 1, .g 2]).gs 2
      = .toSend { res := some 3, err := none, index := 0 } ∧
    (raceStepG [{ res := some 1, err := none }, { res := some 2, err := none },
        { res := some 3, err := none }]
      (raceRun [{ res := some 1, err := none }, { res := some 2, err := none },
        { res := some 3, err := none }] false
        [.g 0, .g 1, .g 2, .g 0, .g 1, .g 2, .g 0, .g 1, .g 2, .g 0, .main, .g 1, .g 2]) 2).gs 2
      = .toSend { res := some 3, err := none, index := 0 } ∧
    (raceStepG [{ res := some 1, err := none }, { res := some 2, err := none },
        { res := some 3, err := none }]
      (raceRun [{ res := some 1, err := none }, { res := some 2, err := none },
        { res := some 3, err := none }] false
        [.g 0, .g 1, .g 2, .g 0, .g 1, .g 2, .g 0, .g 1, .g 2, .g 0, .main, .g 1, .g 2]) 2).buf
      = some { res := some 2, err := none, index := 0 } ∧
    (raceStepG [{ res := some 1, err := none }, { res := some 2, err := none },
        { res := some 3, err := none }]
      (raceRun [{ res := some 1, err := none }, { res := some 2, err := none },
        { res := some 3, err := none }] false
        [.g 0, .g 1, .g 2, .g 0, .g 1, .g 2, .g 0, .g 1, .g 2, .g 0, .main, .g 1, .g 2]) 2).main
      = .received { res := some 1, err := none, index := 0 } :=
  ⟨by decide, by decide, by decide, by decide, by decide, by decide⟩

/-- Witness for C9's amended theorem: two succeeding operations; the
reader has consumed operation 0's publish and operation 1 is at its
send; the buffer is necessarily free. -/
theorem race_channel_discipline_witness :
    (raceRun [{ res := some 1, err := none }, { res := some 2, err := none }] false
      [.g 0, .g 1, .g 0, .g 1, .g 0, .g 0, .main, .g 1]).buf = none :=
  (race_channel_discipline [{ res := some 1, err := none }, { res := some 2, err := none }]
    false [.g 0, .g 1, .g 0, .g 1, .g 0, .g 0, .main, .g 1]
    { res := some 1, err := none, index := 0 } { res := some 2, err := none, index := 0 }
    1).2 (by decide) (by decide) (by decide)

/-- C4 (amended): on an engine whose derived cancellation scope has
already been triggered (as it permanently is after the first returning
`Race`/`All` call, since the scope is derived once at construction),
every subsequent `All` call returns as already-cancelled — each
execution observes the triggered signal, exits without invoking its
operation, and the call returns zero-value sequences; the caller-only
part of the schedule suffices, so it returns immediately.  A subsequent
`Race` call, however, does not return at all: every execution exits
without publishing and the receive blocks forever, under every
schedule. -/
theorem engine_reuse_behavior (ops : List AsyncFunc) (sched : List Label)
    (p : Option (List GoVal) × Option (List GoErr)) :
    Race ops true sched = none ∧
    (All ops true sched = some p →
      p = (some (List.replicate ops.length none), some (List.replicate ops.length none))) ∧
    All ops true ((List.range ops.length).map Label.g ++ [Label.main, Label.main]) =
      some (some (List.replicate ops.length none), some (List.replicate ops.length none)) := by
  refine ⟨?_, ?_, allCancelled_returns ops⟩
  · have hd := raceRun_dead ops sched
    unfold Race
    rw [hd.main_wait]
  · intro h
    have hd := allRun_dead ops sched
    unfold All at h
    cases hm : (allRun ops true sched).main with
    | waiting => rw [hm] at h; exact Option.noConfusion h
    | passed => rw [hm] at h; exact Option.noConfusion h
    | returned =>
      rw [hm] at h
      have hp : ((allRun ops true sched).rs, (allRun ops true sched).errs) = p := by
        injection h
      rw [← hp, hd.rs_eq, hd.errs_eq]

/-- Counterexample to C4 as stated: on an engine whose scope is already
triggered, a subsequent `Race` call does not "return immediately as
already-cancelled" — it never returns.  With one operation and a
schedule that lets the goroutine and the caller each move twice, the
goroutine has exited without publishing, the buffer is empty, the caller
still blocks, and further steps of either change nothing. -/
theorem race_cancelled_engine_counterexample :
    Race [{ res := some 1, err := none }] true [.g 0, .main, .g 0, .main] = none ∧
    (raceRun [{ res := some 1, err := none }] true [.g 0, .main, .g 0, .main]).gs 0
      = .exited ∧
    (raceRun [{ res := some 1, err := none }] true [.g 0, .main, .g 0, .main]).buf = none ∧
    (raceRun [{ res := some 1, err := none }] true [.g 0, .main, .g 0, .main]).main
      = .waiting ∧
    (raceStepG [{ res := some 1, err := none }]
      (raceRun [{ res := some 1, err := none }] true [.g 0, .main, .g 0, .main]) 0).gs 0
      = .exited ∧
    (raceStepG [{ res := some 1, err := none }]
      (raceRun [{ res := some 1, err := none }] true [.g 0, .main, .g 0, .main]) 0).buf
      = none ∧
    (raceStepG [{ res := some 1, err := none }]
      (raceRun [{ res := some 1, err := none }] true [.g 0, .main, .g 0, .main]) 0).main
      = .waiting ∧
    (raceStepMain
      (raceRun [{ res := some 1, err := none }] true [.g 0, .main, .g 0, .main])).main
      = .waiting :=
  ⟨by decide, by decide, by decide, by decide, by decide, by decide, by decide, by decide⟩

/-- Witness for C4's amended theorem: one operation on a triggered
engine; the returning `All` run yields the zero-value sequences. -/
theorem engine_reuse_behavior_witness :
    ((some [none], some [none]) : Option (List GoVal) × Option (List GoErr))
      = (some (List.replicate 1 none), some (List.replicate 1 none)) :=
  (engine_reuse_behavior [{ res := some 1, err := none }] [.g 0, .main, .main]
    (some [none], some [none])).2.1 (by decide)

end Gollback
